import Mathlib

/-!
# eeprog host utility: the test-file generator (`hostutil/generator/main.go`)

A shallow embedding of the generator program and a verification of its
specification.

Conventions of the embedding.

* A Go `uint8` is a `Nat` below 256; arithmetic on it is reduced with an explicit
  `% 256` (`wrapUint8`).
* A Go `int` is an `Int` in the two's-complement range of a 64-bit target
  (`minInt .. maxInt`); `++` on it is reduced with an explicit wrap (`wrapInt`).
* Methods with a pointer receiver become functions that return the result together
  with the updated receiver.
* The unbounded `for` loop of `write` is run with a fuel argument that bounds the
  number of loop iterations; `none` means the fuel ran out before the loop broke.
-/

namespace Generator

/-! ## Machine integers -/

/-- Largest value of a Go `int` on a 64-bit target. -/
def maxInt : Int := 9223372036854775807

/-- Smallest value of a Go `int` on a 64-bit target. -/
def minInt : Int := -9223372036854775808

/-- Two's-complement reduction of a mathematical integer to a Go `int`. -/
def wrapInt (x : Int) : Int :=
  (x + 9223372036854775808) % 18446744073709551616 - 9223372036854775808

/-- Reduction of a mathematical integer to a Go `uint8`. -/
def wrapUint8 (x : Int) : Nat := (x % 256).toNat

/-- Membership in the range of a Go `int`. -/
def isInt (x : Int) : Prop := minInt ≤ x ∧ x ≤ maxInt

instance (x : Int) : Decidable (isInt x) := by unfold isInt; infer_instance

/-! ## The program -/

/-- Source: `const numberOfWords = 8192`. -/
def numberOfWords : Int := 8192

/-- Source: `type supplier interface { next() uint8; hasNext() bool }`.  An implementation
over a receiver type `σ`; `next` returns the byte and the mutated receiver. -/
structure supplier (σ : Type) where
  next : σ → Nat × σ
  hasNext : σ → Bool

/-- Source: `type increasingSupplier struct`. -/
structure increasingSupplier where
  current : Nat
  iterations : Int
  maxIterations : Int
  deriving DecidableEq, Repr

/-- Source: `func (t *increasingSupplier) next() uint8`. -/
def increasingSupplier.next (t : increasingSupplier) : Nat × increasingSupplier :=
  let next := t.current
  let t1 := { t with iterations := wrapInt (t.iterations + 1) }
  let t2 := { t1 with current := wrapUint8 ((t1.current : Int) + 1) }
  (next, t2)

/-- Source: `func (t *increasingSupplier) hasNext() bool`. -/
def increasingSupplier.hasNext (t : increasingSupplier) : Bool :=
  decide (t.iterations < t.maxIterations)

/-- Source: `type decreasingSupplier struct`. -/
structure decreasingSupplier where
  current : Nat
  iterations : Int
  maxIterations : Int
  deriving DecidableEq, Repr

/-- Source: `func (t *decreasingSupplier) next() uint8`. -/
def decreasingSupplier.next (t : decreasingSupplier) : Nat × decreasingSupplier :=
  let next := t.current
  let t1 := { t with iterations := wrapInt (t.iterations + 1) }
  let t2 := { t1 with current := wrapUint8 ((t1.current : Int) - 1) }
  (next, t2)

/-- Source: `func (t *decreasingSupplier) hasNext() bool`. -/
def decreasingSupplier.hasNext (t : decreasingSupplier) : Bool :=
  decide (t.iterations < t.maxIterations)

/-- The method set of `*increasingSupplier` as a `supplier`. -/
def increasing : supplier increasingSupplier :=
  { next := increasingSupplier.next, hasNext := increasingSupplier.hasNext }

/-- The method set of `*decreasingSupplier` as a `supplier`. -/
def decreasing : supplier decreasingSupplier :=
  { next := decreasingSupplier.next, hasNext := decreasingSupplier.hasNext }

/-- A Go `error` value: `none` is `nil`. -/
abbrev error := Option String

/-- The standard interface `io.ByteWriter` over a receiver type `ω`: `WriteByte` returns the
mutated receiver and the error. -/
structure ByteWriter (ω : Type) where
  WriteByte : ω → Nat → ω × error

/-- Source: `func write(w io.ByteWriter, source supplier)`.  One unit of fuel is one pass
through the body of the `for`; the error returned by `WriteByte` is dropped, as in the
source; `byte(...)` of a `uint8` is the identity (`byte` is an alias of `uint8`). -/
def write {ω σ : Type} (W : ByteWriter ω) (S : supplier σ) : Nat → ω → σ → Option (ω × σ)
  | 0, _, _ => none
  | fuel + 1, w, source =>
    if !S.hasNext source then some (w, source)
    else
      let r := S.next source
      let w1 := (W.WriteByte w r.1).1
      write W S fuel w1 r.2

/-- A sink that keeps every byte it is given, in order, and never fails. -/
def sink : ByteWriter (List Nat) :=
  { WriteByte := fun w b => (w ++ [b], none) }

/-- The receiver `main` builds when `-desc` is absent; the omitted field `iterations` has
the zero value. -/
def initialIncreasing : increasingSupplier :=
  { current := 0, iterations := 0, maxIterations := numberOfWords }

/-- The receiver `main` builds when `-desc` is present. -/
def initialDecreasing : decreasingSupplier :=
  { current := 0xFF, iterations := 0, maxIterations := numberOfWords }

/-- The text `printHelp` prints. -/
def usage : String :=
  "\nUSAGE:\t\n" ++
  "The program generates a 8192 word by 1 byte file. The destination file can be specifified\n" ++
  "with the -dest option. If the -desc option is specified the data byte starts from \n" ++
  "the max number representable with 8 bit (0xFF) and goes down to 0. Otherwise it\n" ++
  "starts from 0x00 and goes up to 0xFF. The data byte wraps around, i.e. after 0xFF\n" ++
  "the next byte written is 0x00. Similarly in -desc mode, after the 0x00, follows \n" ++
  "the 0xFF\n\n-dest filename [-desc]\n---\n\n"

/-- The values of `*path`, `*desc` and `*help` after `flag.Parse()`; an absent `-dest` is the
empty string, an absent boolean flag is `false`. -/
structure Flags where
  path : String
  desc : Bool
  help : Bool
  deriving DecidableEq, Repr

/-- The effects of a run other than the bytes handed to the writer, in program order. -/
inductive Event
  | print (text : String)
  | log (text : String)
  | create (path : String)
  | close
  deriving DecidableEq, Repr

/-- Source: `func printHelp()`. -/
def printHelp : Event := Event.print usage

/-- The world `main` runs in.  `Create` is `os.Create` followed by `bufio.NewWriter` and
gives the fresh writer, or `none` when the file cannot be created; `W` and `Flush` are the
methods of that writer. -/
structure Env (ω : Type) where
  Create : String → Option ω
  W : ByteWriter ω
  Flush : ω → ω × error

/-- What a run of `main` leaves behind: the exit status of the process, the effects in order,
and the writer as it stands after the last call made on it (`none` when no writer was ever
made, hence no file created and no byte written). -/
structure Run (ω : Type) where
  exit : Nat
  events : List Event
  writer : Option ω
  deriving DecidableEq, Repr

/-- Source: `func main()`.  `log.Fatal` and `log.Fatalf` log and end the process with status 1,
without running the deferred `f.Close()`; returning from `main` ends it with status 0. The
results of `write` (which has none) and of `w.Flush()` are not inspected, as in the source. -/
def main {ω : Type} (env : Env ω) (fuel : Nat) (fl : Flags) : Option (Run ω) :=
  if fl.help then
    some { exit := 0, events := [printHelp], writer := none }
  else if fl.path = "" then
    some { exit := 1,
           events := [printHelp, Event.log "Error: -dest flag was not provided or it is empty"],
           writer := none }
  else
    match env.Create fl.path with
    | none =>
      some { exit := 1,
             events := [Event.create fl.path,
                        Event.log ("Error: Unable to create file " ++ fl.path ++ "\n")],
             writer := none }
    | some w =>
      if !fl.desc then
        match write env.W increasing fuel w initialIncreasing with
        | none => none
        | some r =>
          some { exit := 0,
                 events := [Event.create fl.path, Event.log "Using increasing order",
                            Event.close],
                 writer := some (env.Flush r.1).1 }
      else
        match write env.W decreasing fuel w initialDecreasing with
        | none => none
        | some r =>
          some { exit := 0,
                 events := [Event.create fl.path, Event.log "Using decreasing order",
                            Event.close],
                 writer := some (env.Flush r.1).1 }

/-- A world without failures: every file can be created and starts empty, every byte written
is kept, and `Flush` succeeds.  The writer state is the content of the file. -/
def ideal : Env (List Nat) :=
  { Create := fun _ => some [], W := sink, Flush := fun w => (w, none) }

/-! ## Trajectories of a supplier -/

/-- The receiver after one call of `next`. -/
def supplier.step {σ : Type} (S : supplier σ) (s : σ) : σ := (S.next s).2

/-- The value returned by the call of `next` number `i` (from 0) in a row of calls
starting at `s`. -/
def supplier.nth {σ : Type} (S : supplier σ) (s : σ) (i : Nat) : Nat :=
  (S.next (S.step^[i] s)).1

/-- The writer after it was handed the bytes `bs` one by one, errors dropped. -/
def ByteWriter.feed {ω : Type} (W : ByteWriter ω) (w : ω) (bs : List Nat) : ω :=
  bs.foldl (fun acc b => (W.WriteByte acc b).1) w

/-- Well-formed `increasingSupplier` values: the fields are in the range of their Go types. -/
def increasingSupplier.WF (t : increasingSupplier) : Prop :=
  t.current < 256 ∧ isInt t.iterations ∧ isInt t.maxIterations

/-- Well-formed `decreasingSupplier` values: the fields are in the range of their Go types. -/
def decreasingSupplier.WF (t : decreasingSupplier) : Prop :=
  t.current < 256 ∧ isInt t.iterations ∧ isInt t.maxIterations

instance (t : increasingSupplier) : Decidable t.WF := by
  unfold increasingSupplier.WF; infer_instance

instance (t : decreasingSupplier) : Decidable t.WF := by
  unfold decreasingSupplier.WF; infer_instance

/-- The state of a `bufio.Writer` over a file: the bytes that reached the file, the bytes held
in the buffer, and the sticky error of the writer. -/
structure Buffered where
  file : List Nat
  buf : List Nat
  err : error
  deriving DecidableEq, Repr

/-- The default buffer size of `bufio.NewWriter`. -/
def defaultBufSize : Nat := 4096

/-- The error a full device reports. -/
def noSpace : String := "no space left on device"

/-- A world in which the destination can be created but stores nothing: every write to the
file fails (a full device).  The writer is a `bufio.Writer` of the default size: `WriteByte`
returns the sticky error if there is one, buffers the byte while there is room, and otherwise
flushes first; `Flush` hands the buffer to the file, which fails, and the error sticks. -/
def fullDevice : Env Buffered :=
  { Create := fun _ => some { file := [], buf := [], err := none },
    W := { WriteByte := fun b c =>
             if b.err.isSome then (b, b.err)
             else if b.buf.length < defaultBufSize then ({ b with buf := b.buf ++ [c] }, none)
             else ({ b with err := some noSpace }, some noSpace) },
    Flush := fun b =>
      if b.err.isSome then (b, b.err)
      else if b.buf.length = 0 then (b, none)
      else ({ b with err := some noSpace }, some noSpace) }


/-! ## The loop of `write` -/

theorem write_eq_of_stop {ω σ : Type} (W : ByteWriter ω) (S : supplier σ) (n : Nat) :
    ∀ (s : σ) (w : ω) (fuel : Nat),
      (∀ i, i < n → S.hasNext (S.step^[i] s) = true) →
      S.hasNext (S.step^[n] s) = false → n < fuel →
      write W S fuel w s = some (W.feed w ((List.range n).map (S.nth s)), S.step^[n] s) := by
  induction n with
  | zero =>
    intro s w fuel _ h0 hf
    obtain ⟨f, rfl⟩ : ∃ f, fuel = f + 1 := ⟨fuel - 1, by omega⟩
    have h0' : S.hasNext s = false := by simpa using h0
    simp [write, h0', ByteWriter.feed]
  | succ n ih =>
    intro s w fuel hlt hstop hf
    obtain ⟨f, rfl⟩ : ∃ f, fuel = f + 1 := ⟨fuel - 1, by omega⟩
    have h0 : S.hasNext s = true := by simpa using hlt 0 (Nat.succ_pos n)
    have hlt' : ∀ i, i < n → S.hasNext (S.step^[i] (S.step s)) = true := by
      intro i hi
      have := hlt (i + 1) (by omega)
      simpa [Function.iterate_succ_apply] using this
    have hstop' : S.hasNext (S.step^[n] (S.step s)) = false := by
      simpa [Function.iterate_succ_apply] using hstop
    have key := ih (S.step s) (W.WriteByte w (S.next s).1).1 f hlt' hstop' (by omega)
    have hnth : ∀ i, S.nth (S.step s) i = S.nth s (i + 1) := by
      intro i; simp [supplier.nth, Function.iterate_succ_apply]
    simp only [write, h0, Bool.not_true, Bool.false_eq_true, if_false]
    rw [show (S.next s).2 = S.step s from rfl, key]
    have hfun : S.nth (S.step s) = fun i => S.nth s (i + 1) := funext hnth
    simp [List.range_succ_eq_map, ByteWriter.feed, List.map_map, Function.comp_def, hfun,
      supplier.nth, Function.iterate_succ_apply]

theorem sink_feed (w bs : List Nat) : sink.feed w bs = w ++ bs := by
  induction bs generalizing w with
  | nil => simp [ByteWriter.feed]
  | cons b bs ih =>
    have h := ih (w ++ [b])
    simp only [ByteWriter.feed] at h ⊢
    simpa [List.foldl_cons, sink] using h


theorem wrapInt_succ (x : Int) (h1 : minInt ≤ x) (h2 : x < maxInt) : wrapInt (x + 1) = x + 1 := by
  unfold minInt at h1; unfold maxInt at h2; unfold wrapInt; omega

theorem increasing_iterate (s : increasingSupplier) (hs : s.WF) (i : Nat)
    (hi : s.iterations + i ≤ maxInt) :
    increasing.step^[i] s =
      { current := (s.current + i) % 256, iterations := s.iterations + i,
        maxIterations := s.maxIterations } := by
  obtain ⟨hc, ⟨hlo, _⟩, _⟩ := hs
  induction i with
  | zero =>
    cases s
    simp only [Function.iterate_zero, id_eq, Nat.add_zero, Nat.cast_zero, Int.add_zero] at *
    congr
    omega
  | succ i ih =>
    have hi' : s.iterations + (i : Int) ≤ maxInt := by push_cast at hi; omega
    rw [Function.iterate_succ_apply', ih hi']
    have hw : wrapInt (s.iterations + (i : Int) + 1) = s.iterations + (i : Int) + 1 :=
      wrapInt_succ _ (by omega) (by push_cast at hi; omega)
    simp only [supplier.step, increasing, increasingSupplier.next, hw]
    congr 1
    · unfold wrapUint8; omega
    · push_cast; ring

theorem decreasing_iterate (s : decreasingSupplier) (hs : s.WF) (i : Nat)
    (hi : s.iterations + i ≤ maxInt) :
    decreasing.step^[i] s =
      { current := wrapUint8 ((s.current : Int) - i), iterations := s.iterations + i,
        maxIterations := s.maxIterations } := by
  obtain ⟨hc, ⟨hlo, _⟩, _⟩ := hs
  induction i with
  | zero =>
    cases s
    simp only [Function.iterate_zero, id_eq, Nat.cast_zero, Int.add_zero, Int.sub_zero] at *
    congr
    unfold wrapUint8; omega
  | succ i ih =>
    have hi' : s.iterations + (i : Int) ≤ maxInt := by push_cast at hi; omega
    rw [Function.iterate_succ_apply', ih hi']
    have hw : wrapInt (s.iterations + (i : Int) + 1) = s.iterations + (i : Int) + 1 :=
      wrapInt_succ _ (by omega) (by push_cast at hi; omega)
    simp only [supplier.step, decreasing, decreasingSupplier.next, hw]
    congr 1
    · unfold wrapUint8; push_cast; omega
    · push_cast; ring


theorem write_increasing {ω : Type} (W : ByteWriter ω) (s : increasingSupplier) (hs : s.WF)
    (w : ω) (fuel : Nat) (hf : (s.maxIterations - s.iterations).toNat < fuel) :
    write W increasing fuel w s =
      some (W.feed w ((List.range (s.maxIterations - s.iterations).toNat).map
              (fun j => (s.current + j) % 256)),
            { current := (s.current + (s.maxIterations - s.iterations).toNat) % 256,
              iterations := s.iterations + (s.maxIterations - s.iterations).toNat,
              maxIterations := s.maxIterations }) := by
  have hs' := hs
  obtain ⟨_, ⟨_, hhi⟩, ⟨_, hmhi⟩⟩ := hs'
  have hbound : ∀ i : Nat, i ≤ (s.maxIterations - s.iterations).toNat →
      s.iterations + (i : Int) ≤ maxInt := by
    intro i hi; omega
  have hmap : (List.range (s.maxIterations - s.iterations).toNat).map (increasing.nth s) =
      (List.range (s.maxIterations - s.iterations).toNat).map
        (fun j => (s.current + j) % 256) := by
    apply List.map_congr_left
    intro i hi
    have hi' := List.mem_range.1 hi
    rw [supplier.nth, increasing_iterate s hs i (hbound i (by omega))]
    rfl
  rw [← hmap, ← increasing_iterate s hs _ (hbound _ (Nat.le_refl _))]
  apply write_eq_of_stop
  · intro i hi
    rw [increasing_iterate s hs i (hbound i (by omega))]
    simp only [increasing, increasingSupplier.hasNext, decide_eq_true_eq]
    omega
  · rw [increasing_iterate s hs _ (hbound _ (Nat.le_refl _))]
    simp only [increasing, increasingSupplier.hasNext, decide_eq_false_iff_not]
    omega
  · exact hf

theorem write_decreasing {ω : Type} (W : ByteWriter ω) (s : decreasingSupplier) (hs : s.WF)
    (w : ω) (fuel : Nat) (hf : (s.maxIterations - s.iterations).toNat < fuel) :
    write W decreasing fuel w s =
      some (W.feed w ((List.range (s.maxIterations - s.iterations).toNat).map
              (fun j : Nat => wrapUint8 ((s.current : Int) - (j : Int)))),
            { current := wrapUint8 ((s.current : Int) - (s.maxIterations - s.iterations).toNat),
              iterations := s.iterations + (s.maxIterations - s.iterations).toNat,
              maxIterations := s.maxIterations }) := by
  have hs' := hs
  obtain ⟨_, ⟨_, hhi⟩, ⟨_, hmhi⟩⟩ := hs'
  have hbound : ∀ i : Nat, i ≤ (s.maxIterations - s.iterations).toNat →
      s.iterations + (i : Int) ≤ maxInt := by
    intro i hi; omega
  have hmap : (List.range (s.maxIterations - s.iterations).toNat).map (decreasing.nth s) =
      (List.range (s.maxIterations - s.iterations).toNat).map
        (fun j : Nat => wrapUint8 ((s.current : Int) - (j : Int))) := by
    apply List.map_congr_left
    intro i hi
    have hi' := List.mem_range.1 hi
    rw [supplier.nth, decreasing_iterate s hs i (hbound i (by omega))]
    rfl
  rw [← hmap, ← decreasing_iterate s hs _ (hbound _ (Nat.le_refl _))]
  apply write_eq_of_stop
  · intro i hi
    rw [decreasing_iterate s hs i (hbound i (by omega))]
    simp only [decreasing, decreasingSupplier.hasNext, decide_eq_true_eq]
    omega
  · rw [decreasing_iterate s hs _ (hbound _ (Nat.le_refl _))]
    simp only [decreasing, decreasingSupplier.hasNext, decide_eq_false_iff_not]
    omega
  · exact hf

theorem initialIncreasing_WF : initialIncreasing.WF := by
  decide

theorem initialDecreasing_WF : initialDecreasing.WF := by
  decide

theorem write_initialIncreasing {ω : Type} (W : ByteWriter ω) (w : ω) (fuel : Nat)
    (hf : 8192 < fuel) :
    write W increasing fuel w initialIncreasing =
      some (W.feed w ((List.range 8192).map (fun j => j % 256)),
            { current := 0, iterations := 8192, maxIterations := 8192 }) := by
  have h := write_increasing W initialIncreasing initialIncreasing_WF w fuel
    (by simpa [initialIncreasing, numberOfWords] using hf)
  simpa [initialIncreasing, numberOfWords] using h

theorem write_initialDecreasing {ω : Type} (W : ByteWriter ω) (w : ω) (fuel : Nat)
    (hf : 8192 < fuel) :
    write W decreasing fuel w initialDecreasing =
      some (W.feed w ((List.range 8192).map (fun j : Nat => wrapUint8 (255 - (j : Int)))),
            { current := 255, iterations := 8192, maxIterations := 8192 }) := by
  have h := write_decreasing W initialDecreasing initialDecreasing_WF w fuel
    (by simpa [initialDecreasing, numberOfWords] using hf)
  simpa [initialDecreasing, numberOfWords, wrapUint8] using h


/-! ## Runs of `main` that reach the writer -/

theorem main_ascending {ω : Type} (env : Env ω) (fuel : Nat) (path : String) (w0 : ω)
    (hp : path ≠ "") (hc : env.Create path = some w0) (hf : 8192 < fuel) :
    main env fuel { path := path, desc := false, help := false } =
      some { exit := 0,
             events := [Event.create path, Event.log "Using increasing order", Event.close],
             writer := some (env.Flush
               (env.W.feed w0 ((List.range 8192).map (fun j => j % 256)))).1 } := by
  simp [main, hp, hc, write_initialIncreasing env.W w0 fuel hf]

theorem main_descending {ω : Type} (env : Env ω) (fuel : Nat) (path : String) (w0 : ω)
    (hp : path ≠ "") (hc : env.Create path = some w0) (hf : 8192 < fuel) :
    main env fuel { path := path, desc := true, help := false } =
      some { exit := 0,
             events := [Event.create path, Event.log "Using decreasing order", Event.close],
             writer := some (env.Flush
               (env.W.feed w0 ((List.range 8192).map
                 (fun j : Nat => wrapUint8 (255 - (j : Int)))))).1 } := by
  simp [main, hp, hc, write_initialDecreasing env.W w0 fuel hf]

theorem ascending_getElem (i : Nat) (hi : i < 8192) :
    ((List.range 8192).map (fun j => j % 256))[i]? = some (i % 256) := by
  simp [List.getElem?_map, List.getElem?_range, hi]

theorem descending_getElem (i : Nat) (hi : i < 8192) :
    ((List.range 8192).map (fun j : Nat => wrapUint8 (255 - (j : Int))))[i]? =
      some (wrapUint8 (255 - (i : Int))) := by
  simp [List.getElem?_map, List.getElem?_range, hi]

/-- C1: the ascending run. Draining the supplier `main` builds when `-desc` is absent
(`current = 0`, `iterations = 0`, `maxIterations = 8192`) through `write` into an empty sink
returns, for every fuel above 8192, a sink of exactly 8192 bytes whose byte at offset `i` is
`i mod 256`. -/
theorem ascending_run (fuel : Nat) (hf : 8192 < fuel) :
    initialIncreasing = { current := 0, iterations := 0, maxIterations := 8192 } ∧
    ∃ out t, write sink increasing fuel [] initialIncreasing = some (out, t) ∧
      out.length = 8192 ∧ ∀ i : Nat, i < 8192 → out[i]? = some (i % 256) := by
  refine ⟨rfl, _, _, write_initialIncreasing sink [] fuel hf, ?_, ?_⟩
  · simp [sink_feed]
  · intro i hi
    rw [sink_feed, List.nil_append]
    exact ascending_getElem i hi

/-- The ascending run at fuel 8193. -/
theorem ascending_run_witness :
    8192 < 8193 ∧
    (initialIncreasing = { current := 0, iterations := 0, maxIterations := 8192 } ∧
     ∃ out t, write sink increasing 8193 [] initialIncreasing = some (out, t) ∧
      out.length = 8192 ∧ ∀ i : Nat, i < 8192 → out[i]? = some (i % 256)) :=
  ⟨by decide, ascending_run 8193 (by decide)⟩

/-- C2: the descending run. Draining the supplier `main` builds when `-desc` is present
(`current = 0xFF`, `iterations = 0`, `maxIterations = 8192`) through `write` into an empty
sink returns, for every fuel above 8192, a sink of exactly 8192 bytes whose byte at offset
`i` is `(255 - i) mod 256` with the non-negative modulus, which is also `255 - (i mod 256)`. -/
theorem descending_run (fuel : Nat) (hf : 8192 < fuel) :
    initialDecreasing = { current := 0xFF, iterations := 0, maxIterations := 8192 } ∧
    ∃ out t, write sink decreasing fuel [] initialDecreasing = some (out, t) ∧
      out.length = 8192 ∧
      ∀ i : Nat, i < 8192 → ∃ b : Nat, out[i]? = some b ∧
        (b : Int) = (255 - (i : Int)) % 256 ∧ b = 255 - i % 256 := by
  refine ⟨rfl, _, _, write_initialDecreasing sink [] fuel hf, ?_, ?_⟩
  · simp [sink_feed]
  · intro i hi
    refine ⟨wrapUint8 (255 - (i : Int)), ?_, ?_, ?_⟩
    · rw [sink_feed, List.nil_append]
      exact descending_getElem i hi
    · unfold wrapUint8; omega
    · unfold wrapUint8; omega

/-- The descending run at fuel 8193. -/
theorem descending_run_witness :
    8192 < 8193 ∧
    (initialDecreasing = { current := 0xFF, iterations := 0, maxIterations := 8192 } ∧
     ∃ out t, write sink decreasing 8193 [] initialDecreasing = some (out, t) ∧
      out.length = 8192 ∧
      ∀ i : Nat, i < 8192 → ∃ b : Nat, out[i]? = some b ∧
        (b : Int) = (255 - (i : Int)) % 256 ∧ b = 255 - i % 256) :=
  ⟨by decide, descending_run 8193 (by decide)⟩


theorem main_ideal_ascending (fuel : Nat) (path : String) (hp : path ≠ "") (hf : 8192 < fuel) :
    main ideal fuel { path := path, desc := false, help := false } =
      some { exit := 0,
             events := [Event.create path, Event.log "Using increasing order", Event.close],
             writer := some ((List.range 8192).map (fun j => j % 256)) } := by
  rw [main_ascending ideal fuel path [] hp rfl hf]
  simp [ideal, sink_feed]

theorem main_ideal_descending (fuel : Nat) (path : String) (hp : path ≠ "") (hf : 8192 < fuel) :
    main ideal fuel { path := path, desc := true, help := false } =
      some { exit := 0,
             events := [Event.create path, Event.log "Using decreasing order", Event.close],
             writer := some ((List.range 8192).map
               (fun j : Nat => wrapUint8 (255 - (j : Int)))) } := by
  rw [main_descending ideal fuel path [] hp rfl hf]
  simp [ideal, sink_feed]

theorem ascending_take_four :
    ((List.range 8192).map (fun j => j % 256)).take 4 = [0, 1, 2, 3] := by
  apply List.ext_getElem?
  intro i
  by_cases hi : i < 4
  · rw [List.getElem?_take_of_lt hi, ascending_getElem i (by omega)]
    interval_cases i <;> rfl
  · simp [List.getElem?_take_eq_none, Nat.le_of_not_lt hi]

theorem descending_take_four :
    ((List.range 8192).map (fun j : Nat => wrapUint8 (255 - (j : Int)))).take 4 =
      [255, 254, 253, 252] := by
  apply List.ext_getElem?
  intro i
  by_cases hi : i < 4
  · rw [List.getElem?_take_of_lt hi, descending_getElem i (by omega)]
    interval_cases i <;> rfl
  · simp [List.getElem?_take_eq_none, Nat.le_of_not_lt hi]

/-- C3: the wraparound boundary. In the file a run without `-desc` leaves in a world without
failures the byte at offset 255 is `0xFF` and the byte at offset 256 is `0x00`; in the file a
run with `-desc` leaves the byte at offset 255 is `0x00` and the byte at offset 256 is
`0xFF`. -/
theorem wraparound_boundary (fuel : Nat) (path : String) (hp : path ≠ "") (hf : 8192 < fuel) :
    ∃ ra rd asc dsc,
      main ideal fuel { path := path, desc := false, help := false } = some ra ∧
      ra.writer = some asc ∧
      main ideal fuel { path := path, desc := true, help := false } = some rd ∧
      rd.writer = some dsc ∧
      asc[255]? = some 0xFF ∧ asc[256]? = some 0x00 ∧
      dsc[255]? = some 0x00 ∧ dsc[256]? = some 0xFF := by
  refine ⟨_, _, _, _, main_ideal_ascending fuel path hp hf, rfl,
    main_ideal_descending fuel path hp hf, rfl, ?_, ?_, ?_, ?_⟩
  · exact ascending_getElem 255 (by decide)
  · exact ascending_getElem 256 (by decide)
  · exact descending_getElem 255 (by decide)
  · exact descending_getElem 256 (by decide)

/-- The wraparound boundary for the destination `out.bin` at fuel 8193. -/
theorem wraparound_boundary_witness :
    "out.bin" ≠ "" ∧ 8192 < 8193 ∧
    ∃ ra rd asc dsc,
      main ideal 8193 { path := "out.bin", desc := false, help := false } = some ra ∧
      ra.writer = some asc ∧
      main ideal 8193 { path := "out.bin", desc := true, help := false } = some rd ∧
      rd.writer = some dsc ∧
      asc[255]? = some 0xFF ∧ asc[256]? = some 0x00 ∧
      dsc[255]? = some 0x00 ∧ dsc[256]? = some 0xFF :=
  ⟨by decide, by decide, wraparound_boundary 8193 "out.bin" (by decide) (by decide)⟩

/-- C4, as stated, fails: the run with `-dest out.bin` does not leave a file whose last byte
(offset 8191) is `0x7F`; the byte there is `0xFF`, and `8191 mod 256` is 255, not `0x7F`. -/
theorem ascending_scenario_counterexample :
    ¬ (∃ r out, main ideal 8193 { path := "out.bin", desc := false, help := false } = some r ∧
        r.writer = some out ∧ out.length = 8192 ∧ out.take 4 = [0x00, 0x01, 0x02, 0x03] ∧
        out[8191]? = some 0x7F) ∧
    8191 % 256 ≠ 0x7F := by
  refine ⟨?_, by decide⟩
  rintro ⟨r, out, hr, hw, -, -, hlast⟩
  rw [main_ideal_ascending 8193 "out.bin" (by decide) (by decide)] at hr
  have hr' := Option.some.inj hr
  subst hr'
  have hw' := Option.some.inj hw
  subst hw'
  rw [ascending_getElem 8191 (by decide)] at hlast
  norm_num at hlast

/-- C4, amended: the run with `-dest out.bin` (any non-empty destination) leaves, in a world
without failures, a file of 8192 bytes whose first four bytes are `00 01 02 03` and whose last
byte (offset 8191) is `0xFF`, which is `8191 mod 256`. -/
theorem ascending_scenario (fuel : Nat) (path : String) (hp : path ≠ "") (hf : 8192 < fuel) :
    ∃ r out, main ideal fuel { path := path, desc := false, help := false } = some r ∧
      r.exit = 0 ∧ r.writer = some out ∧ out.length = 8192 ∧
      out.take 4 = [0x00, 0x01, 0x02, 0x03] ∧
      out[8191]? = some 0xFF ∧ 8191 % 256 = 0xFF := by
  refine ⟨_, _, main_ideal_ascending fuel path hp hf, rfl, rfl, ?_, ascending_take_four,
    ascending_getElem 8191 (by decide), by decide⟩
  simp

/-- The ascending scenario for the destination `out.bin` at fuel 8193. -/
theorem ascending_scenario_witness :
    "out.bin" ≠ "" ∧ 8192 < 8193 ∧
    ∃ r out, main ideal 8193 { path := "out.bin", desc := false, help := false } = some r ∧
      r.exit = 0 ∧ r.writer = some out ∧ out.length = 8192 ∧
      out.take 4 = [0x00, 0x01, 0x02, 0x03] ∧
      out[8191]? = some 0xFF ∧ 8191 % 256 = 0xFF :=
  ⟨by decide, by decide, ascending_scenario 8193 "out.bin" (by decide) (by decide)⟩

/-- C5, as stated, fails: the run with `-dest out.bin -desc` does not leave a file whose last
byte (offset 8191) is `0x80`; the byte there is `0x00`, and `(255 - 8191) mod 256` is 0, not
`0x80`. -/
theorem descending_scenario_counterexample :
    ¬ (∃ r out, main ideal 8193 { path := "out.bin", desc := true, help := false } = some r ∧
        r.writer = some out ∧ out.take 4 = [0xFF, 0xFE, 0xFD, 0xFC] ∧
        out[8191]? = some 0x80) ∧
    ((255 : Int) - 8191) % 256 ≠ 0x80 := by
  refine ⟨?_, by decide⟩
  rintro ⟨r, out, hr, hw, -, hlast⟩
  rw [main_ideal_descending 8193 "out.bin" (by decide) (by decide)] at hr
  have hr' := Option.some.inj hr
  subst hr'
  have hw' := Option.some.inj hw
  subst hw'
  rw [descending_getElem 8191 (by decide)] at hlast
  norm_num [wrapUint8] at hlast

/-- C5, amended: the run with `-dest out.bin -desc` (any non-empty destination) leaves, in a
world without failures, a file of 8192 bytes whose first four bytes are `FF FE FD FC` and whose
last byte (offset 8191) is `0x00`, which is `(255 - 8191) mod 256`. -/
theorem descending_scenario (fuel : Nat) (path : String) (hp : path ≠ "") (hf : 8192 < fuel) :
    ∃ r out, main ideal fuel { path := path, desc := true, help := false } = some r ∧
      r.exit = 0 ∧ r.writer = some out ∧ out.length = 8192 ∧
      out.take 4 = [0xFF, 0xFE, 0xFD, 0xFC] ∧
      out[8191]? = some 0x00 ∧ ((255 : Int) - 8191) % 256 = 0x00 := by
  refine ⟨_, _, main_ideal_descending fuel path hp hf, rfl, rfl, ?_, descending_take_four,
    descending_getElem 8191 (by decide), by decide⟩
  simp

/-- The descending scenario for the destination `out.bin` at fuel 8193. -/
theorem descending_scenario_witness :
    "out.bin" ≠ "" ∧ 8192 < 8193 ∧
    ∃ r out, main ideal 8193 { path := "out.bin", desc := true, help := false } = some r ∧
      r.exit = 0 ∧ r.writer = some out ∧ out.length = 8192 ∧
      out.take 4 = [0xFF, 0xFE, 0xFD, 0xFC] ∧
      out[8191]? = some 0x00 ∧ ((255 : Int) - 8191) % 256 = 0x00 :=
  ⟨by decide, by decide, descending_scenario 8193 "out.bin" (by decide) (by decide)⟩


/-- C6: `write` keeps the order of emission, byte for byte. For every well-formed state of
either supplier there is a number `n` of calls after which `hasNext()` is false for the first
time; for every fuel above `n`, `write` returns; every writer, whatever it does with a byte,
has been handed exactly the values of the successive calls of `next()`, in call order; the
sink holds its earlier content followed by these `n` values, value `i` being the one the call
number `i` of `next()` returned; and the supplier is left with `hasNext()` false. -/
theorem write_preserves_order {ω : Type} (W : ByteWriter ω) (w : ω) (prior : List Nat)
    (si : increasingSupplier) (sd : decreasingSupplier) (hi : si.WF) (hd : sd.WF) :
    (∃ n, (∀ i, i < n → increasing.hasNext (increasing.step^[i] si) = true) ∧
      increasing.hasNext (increasing.step^[n] si) = false ∧
      ∀ fuel, n < fuel →
        write W increasing fuel w si =
          some (W.feed w ((List.range n).map (increasing.nth si)), increasing.step^[n] si) ∧
        write sink increasing fuel prior si =
          some (prior ++ (List.range n).map (increasing.nth si), increasing.step^[n] si)) ∧
    (∃ n, (∀ i, i < n → decreasing.hasNext (decreasing.step^[i] sd) = true) ∧
      decreasing.hasNext (decreasing.step^[n] sd) = false ∧
      ∀ fuel, n < fuel →
        write W decreasing fuel w sd =
          some (W.feed w ((List.range n).map (decreasing.nth sd)), decreasing.step^[n] sd) ∧
        write sink decreasing fuel prior sd =
          some (prior ++ (List.range n).map (decreasing.nth sd), decreasing.step^[n] sd)) := by
  constructor
  · have hb : ∀ i : Nat, i ≤ (si.maxIterations - si.iterations).toNat →
        si.iterations + (i : Int) ≤ maxInt := by
      obtain ⟨_, ⟨_, _⟩, ⟨_, _⟩⟩ := hi
      intro i hle; omega
    have hrun : ∀ i, i < (si.maxIterations - si.iterations).toNat →
        increasing.hasNext (increasing.step^[i] si) = true := by
      intro i hlt
      rw [increasing_iterate si hi i (hb i (by omega))]
      simp only [increasing, increasingSupplier.hasNext, decide_eq_true_eq]
      omega
    have hstop : increasing.hasNext
        (increasing.step^[(si.maxIterations - si.iterations).toNat] si) = false := by
      rw [increasing_iterate si hi _ (hb _ (Nat.le_refl _))]
      simp only [increasing, increasingSupplier.hasNext, decide_eq_false_iff_not]
      omega
    refine ⟨_, hrun, hstop, fun fuel hf => ⟨?_, ?_⟩⟩
    · exact write_eq_of_stop W increasing _ si w fuel hrun hstop hf
    · rw [write_eq_of_stop sink increasing _ si prior fuel hrun hstop hf, sink_feed]
  · have hb : ∀ i : Nat, i ≤ (sd.maxIterations - sd.iterations).toNat →
        sd.iterations + (i : Int) ≤ maxInt := by
      obtain ⟨_, ⟨_, _⟩, ⟨_, _⟩⟩ := hd
      intro i hle; omega
    have hrun : ∀ i, i < (sd.maxIterations - sd.iterations).toNat →
        decreasing.hasNext (decreasing.step^[i] sd) = true := by
      intro i hlt
      rw [decreasing_iterate sd hd i (hb i (by omega))]
      simp only [decreasing, decreasingSupplier.hasNext, decide_eq_true_eq]
      omega
    have hstop : decreasing.hasNext
        (decreasing.step^[(sd.maxIterations - sd.iterations).toNat] sd) = false := by
      rw [decreasing_iterate sd hd _ (hb _ (Nat.le_refl _))]
      simp only [decreasing, decreasingSupplier.hasNext, decide_eq_false_iff_not]
      omega
    refine ⟨_, hrun, hstop, fun fuel hf => ⟨?_, ?_⟩⟩
    · exact write_eq_of_stop W decreasing _ sd w fuel hrun hstop hf
    · rw [write_eq_of_stop sink decreasing _ sd prior fuel hrun hstop hf, sink_feed]


/-- The order of emission for an ascending supplier at 254 and a descending supplier at 1,
three values each, crossing the wraparound. -/
theorem write_preserves_order_witness :
    (({ current := 254, iterations := 0, maxIterations := 3 } : increasingSupplier).WF ∧
     ({ current := 1, iterations := 0, maxIterations := 3 } : decreasingSupplier).WF) ∧
    ((∃ n, (∀ i, i < n → increasing.hasNext (increasing.step^[i]
          { current := 254, iterations := 0, maxIterations := 3 }) = true) ∧
      increasing.hasNext (increasing.step^[n]
          { current := 254, iterations := 0, maxIterations := 3 }) = false ∧
      ∀ fuel, n < fuel →
        write sink increasing fuel [9] { current := 254, iterations := 0, maxIterations := 3 } =
          some (sink.feed [9] ((List.range n).map (increasing.nth
                  { current := 254, iterations := 0, maxIterations := 3 })),
                increasing.step^[n] { current := 254, iterations := 0, maxIterations := 3 }) ∧
        write sink increasing fuel [7] { current := 254, iterations := 0, maxIterations := 3 } =
          some ([7] ++ (List.range n).map (increasing.nth
                  { current := 254, iterations := 0, maxIterations := 3 }),
                increasing.step^[n] { current := 254, iterations := 0, maxIterations := 3 })) ∧
    (∃ n, (∀ i, i < n → decreasing.hasNext (decreasing.step^[i]
          { current := 1, iterations := 0, maxIterations := 3 }) = true) ∧
      decreasing.hasNext (decreasing.step^[n]
          { current := 1, iterations := 0, maxIterations := 3 }) = false ∧
      ∀ fuel, n < fuel →
        write sink decreasing fuel [9] { current := 1, iterations := 0, maxIterations := 3 } =
          some (sink.feed [9] ((List.range n).map (decreasing.nth
                  { current := 1, iterations := 0, maxIterations := 3 })),
                decreasing.step^[n] { current := 1, iterations := 0, maxIterations := 3 }) ∧
        write sink decreasing fuel [7] { current := 1, iterations := 0, maxIterations := 3 } =
          some ([7] ++ (List.range n).map (decreasing.nth
                  { current := 1, iterations := 0, maxIterations := 3 }),
                decreasing.step^[n] { current := 1, iterations := 0, maxIterations := 3 }))) :=
  ⟨⟨by decide, by decide⟩,
   write_preserves_order sink [9] [7] { current := 254, iterations := 0, maxIterations := 3 }
     { current := 1, iterations := 0, maxIterations := 3 } (by decide) (by decide)⟩

/-! ## A world whose writes fail -/

theorem fullDevice_feed (l : List Nat) :
    fullDevice.W.feed { file := [], buf := [], err := none } l =
      { file := [], buf := l.take defaultBufSize,
        err := if defaultBufSize < l.length then some noSpace else none } := by
  induction l using List.reverseRecOn with
  | nil => simp [ByteWriter.feed]
  | append_singleton l x ih =>
    have hstep : fullDevice.W.feed { file := [], buf := [], err := none } (l ++ [x]) =
        (fullDevice.W.WriteByte
          (fullDevice.W.feed { file := [], buf := [], err := none } l) x).1 := by
      simp [ByteWriter.feed, List.foldl_append]
    rw [hstep, ih]
    rcases Nat.lt_trichotomy l.length defaultBufSize with h | h | h
    · have h1 : ¬ defaultBufSize < l.length := by omega
      have h2 : ¬ defaultBufSize < l.length + 1 := by omega
      have h3 : (l ++ [x]).length ≤ defaultBufSize := by simp; omega
      simp [fullDevice, h1, h2, List.take_of_length_le h3, List.take_of_length_le (Nat.le_of_lt h),
        h]
    · have h1 : ¬ defaultBufSize < l.length := by omega
      have h2 : defaultBufSize < l.length + 1 := by omega
      have h4 : (l.take defaultBufSize).length = defaultBufSize := by simp [h]
      simp [fullDevice, h1, h2, h4, List.take_append_of_le_length (Nat.le_of_eq h.symm)]
    · have h2 : defaultBufSize < l.length + 1 := by omega
      simp [fullDevice, h, h2, List.take_append_of_le_length (Nat.le_of_lt h)]

/-- C7, the code at a failing input: on a full device, where the 4097th `WriteByte`, every
later `WriteByte` and the final `Flush` return an error, the run with `-dest /dev/full` is not
aborted: it returns from `main` with exit status 0 after the deferred close, the sticky error
of the writer is set, and no byte has reached the file. -/
theorem write_failure_not_fatal :
    ∃ r w, main fullDevice 8193 { path := "/dev/full", desc := false, help := false } = some r ∧
      r.exit = 0 ∧
      r.events = [Event.create "/dev/full", Event.log "Using increasing order", Event.close] ∧
      r.writer = some w ∧ w.err = some noSpace ∧ (fullDevice.Flush w).2 = some noSpace ∧
      w.file = [] := by
  refine ⟨_, _, main_ascending fullDevice 8193 "/dev/full" _ (by decide) rfl (by decide),
    rfl, rfl, rfl, ?_, ?_, ?_⟩
  all_goals
    rw [fullDevice_feed]
    simp [fullDevice, defaultBufSize]

/-- C8: help takes precedence. For every world, every fuel and every value of `-dest` and
`-desc` (the empty `-dest` included), the run with `-help` prints the usage text and returns
with status 0; nothing else happens: no file is created and no writer exists, so no byte is
written. -/
theorem help_takes_precedence {ω : Type} (env : Env ω) (fuel : Nat) (path : String)
    (desc : Bool) :
    ∃ r, main env fuel { path := path, desc := desc, help := true } = some r ∧
      r.exit = 0 ∧ r.events = [Event.print usage] ∧ r.writer = none ∧
      ∀ p, Event.create p ∉ r.events := by
  refine ⟨{ exit := 0, events := [Event.print usage], writer := none }, ?_, rfl, rfl, rfl, ?_⟩
  · simp [main, printHelp]
  · intro p; simp

/-- C9: missing destination. For every world, every fuel and either value of `-desc`, the run
without `-help` and with an empty `-dest` prints the usage text first, then logs the fatal
error and ends with the non-zero status 1; no file is created and no writer exists, so no byte
is written. -/
theorem missing_destination {ω : Type} (env : Env ω) (fuel : Nat) (desc : Bool) :
    ∃ r, main env fuel { path := "", desc := desc, help := false } = some r ∧
      r.exit = 1 ∧ r.exit ≠ 0 ∧
      r.events = [Event.print usage,
                  Event.log "Error: -dest flag was not provided or it is empty"] ∧
      r.writer = none ∧ ∀ p, Event.create p ∉ r.events := by
  refine ⟨{ exit := 1,
            events := [Event.print usage,
                       Event.log "Error: -dest flag was not provided or it is empty"],
            writer := none }, ?_, rfl, Nat.one_ne_zero, rfl, rfl, ?_⟩
  · simp [main, printHelp]
  · intro p; simp


/-- C10, as stated, fails: `next()` does not increase `iterations` by exactly 1 in every state.
In the well-formed state with `iterations` at the largest `int`, the counter wraps to the
smallest `int`, for either supplier. -/
theorem next_counterexample :
    ({ current := 0, iterations := 9223372036854775807, maxIterations := 8192 } :
        increasingSupplier).WF ∧
    (increasingSupplier.next
        { current := 0, iterations := 9223372036854775807, maxIterations := 8192 }).2.iterations
      = -9223372036854775808 ∧
    (increasingSupplier.next
        { current := 0, iterations := 9223372036854775807, maxIterations := 8192 }).2.iterations
      ≠ 9223372036854775807 + 1 ∧
    ({ current := 255, iterations := 9223372036854775807, maxIterations := 8192 } :
        decreasingSupplier).WF ∧
    (decreasingSupplier.next
        { current := 255, iterations := 9223372036854775807, maxIterations := 8192 }).2.iterations
      ≠ 9223372036854775807 + 1 := by
  refine ⟨by decide, by decide, by decide, by decide, by decide⟩

/-- C10, amended: `next()` is return-then-advance with 8-bit wraparound. For every well-formed
state of either supplier, `next()` returns the old `current`, sets `current` to
`(current + 1) mod 256` (ascending, 255 becomes 0) or `(current - 1) mod 256` (descending, 0
becomes 255), leaves `maxIterations` unchanged, and increases `iterations` by exactly 1 when it
is below the largest `int`; at the largest `int` the counter wraps to the smallest `int`. -/
theorem next_return_then_advance (si : increasingSupplier) (sd : decreasingSupplier)
    (hi : si.WF) (hd : sd.WF) :
    ((si.next).1 = si.current ∧
     (si.next).2.current = (si.current + 1) % 256 ∧
     (si.current = 255 → (si.next).2.current = 0) ∧
     (si.iterations < maxInt → (si.next).2.iterations = si.iterations + 1) ∧
     (si.iterations = maxInt → (si.next).2.iterations = minInt) ∧
     (si.next).2.maxIterations = si.maxIterations) ∧
    ((sd.next).1 = sd.current ∧
     ((sd.next).2.current : Int) = ((sd.current : Int) - 1) % 256 ∧
     (sd.current = 0 → (sd.next).2.current = 255) ∧
     (sd.iterations < maxInt → (sd.next).2.iterations = sd.iterations + 1) ∧
     (sd.iterations = maxInt → (sd.next).2.iterations = minInt) ∧
     (sd.next).2.maxIterations = sd.maxIterations) := by
  obtain ⟨_, ⟨hilo, _⟩, _⟩ := hi
  obtain ⟨_, ⟨hdlo, _⟩, _⟩ := hd
  refine ⟨⟨rfl, ?_, ?_, ?_, ?_, rfl⟩, ⟨rfl, ?_, ?_, ?_, ?_, rfl⟩⟩
  · simp only [increasingSupplier.next, wrapUint8]; omega
  · intro h; simp only [increasingSupplier.next, wrapUint8]; omega
  · intro h; exact wrapInt_succ _ hilo h
  · intro h
    simp only [increasingSupplier.next, wrapInt, h, maxInt, minInt]
    decide
  · simp only [decreasingSupplier.next, wrapUint8]; omega
  · intro h; simp only [decreasingSupplier.next, wrapUint8]; omega
  · intro h; exact wrapInt_succ _ hdlo h
  · intro h
    simp only [decreasingSupplier.next, wrapInt, h, maxInt, minInt]
    decide

/-- One call of `next()` at the wraparound: ascending from 255, descending from 0. -/
theorem next_return_then_advance_witness :
    (({ current := 255, iterations := 5, maxIterations := 8192 } : increasingSupplier).WF ∧
     ({ current := 0, iterations := 5, maxIterations := 8192 } : decreasingSupplier).WF) ∧
    (((increasingSupplier.next { current := 255, iterations := 5, maxIterations := 8192 }).1
        = 255 ∧
      (increasingSupplier.next
        { current := 255, iterations := 5, maxIterations := 8192 }).2.current
        = (255 + 1) % 256 ∧
      ((255 : Nat) = 255 → (increasingSupplier.next
        { current := 255, iterations := 5, maxIterations := 8192 }).2.current = 0) ∧
      ((5 : Int) < maxInt → (increasingSupplier.next
        { current := 255, iterations := 5, maxIterations := 8192 }).2.iterations = 5 + 1) ∧
      ((5 : Int) = maxInt → (increasingSupplier.next
        { current := 255, iterations := 5, maxIterations := 8192 }).2.iterations = minInt) ∧
      (increasingSupplier.next
        { current := 255, iterations := 5, maxIterations := 8192 }).2.maxIterations = 8192) ∧
     ((decreasingSupplier.next { current := 0, iterations := 5, maxIterations := 8192 }).1 = 0 ∧
      (((decreasingSupplier.next
        { current := 0, iterations := 5, maxIterations := 8192 }).2.current : Nat) : Int)
        = (((0 : Nat) : Int) - 1) % 256 ∧
      ((0 : Nat) = 0 → (decreasingSupplier.next
        { current := 0, iterations := 5, maxIterations := 8192 }).2.current = 255) ∧
      ((5 : Int) < maxInt → (decreasingSupplier.next
        { current := 0, iterations := 5, maxIterations := 8192 }).2.iterations = 5 + 1) ∧
      ((5 : Int) = maxInt → (decreasingSupplier.next
        { current := 0, iterations := 5, maxIterations := 8192 }).2.iterations = minInt) ∧
      (decreasingSupplier.next
        { current := 0, iterations := 5, maxIterations := 8192 }).2.maxIterations = 8192)) :=
  ⟨⟨by decide, by decide⟩,
   next_return_then_advance { current := 255, iterations := 5, maxIterations := 8192 }
     { current := 0, iterations := 5, maxIterations := 8192 } (by decide) (by decide)⟩

/-- C11: exactly 8192 values are available. For the supplier of either direction as `main`
builds it, after `k` calls of `next()` with `k ≤ 8192`, `hasNext()` is true exactly when
`k < 8192`: it is true before each of the 8192 emissions and false right after the last. -/
theorem exactly_numberOfWords_values (k : Nat) (hk : k ≤ 8192) :
    (increasing.hasNext (increasing.step^[k] initialIncreasing) = true ↔ k < 8192) ∧
    (decreasing.hasNext (decreasing.step^[k] initialDecreasing) = true ↔ k < 8192) := by
  have hi : initialIncreasing.iterations + (k : Int) ≤ maxInt := by
    simp only [initialIncreasing, maxInt]; omega
  have hd : initialDecreasing.iterations + (k : Int) ≤ maxInt := by
    simp only [initialDecreasing, maxInt]; omega
  rw [increasing_iterate _ initialIncreasing_WF k hi, decreasing_iterate _ initialDecreasing_WF k hd]
  simp only [increasing, decreasing, increasingSupplier.hasNext, decreasingSupplier.hasNext,
    decide_eq_true_eq, initialIncreasing, initialDecreasing, numberOfWords]
  omega

/-- The availability of values after 8192 calls of `next()`. -/
theorem exactly_numberOfWords_values_witness :
    8192 ≤ 8192 ∧
    ((increasing.hasNext (increasing.step^[8192] initialIncreasing) = true ↔ 8192 < 8192) ∧
     (decreasing.hasNext (decreasing.step^[8192] initialDecreasing) = true ↔ 8192 < 8192)) :=
  ⟨by decide, exactly_numberOfWords_values 8192 (by decide)⟩

theorem increasing_guarded (s : increasingSupplier) (hs : s.WF)
    (hle : s.iterations ≤ s.maxIterations) (k : Nat)
    (hg : ∀ i, i < k → increasing.hasNext (increasing.step^[i] s) = true) :
    s.iterations + (k : Int) ≤ s.maxIterations := by
  have hmax : s.maxIterations ≤ maxInt := hs.2.2.2
  induction k with
  | zero => simpa using hle
  | succ k ih =>
    have hk := ih (fun i hi => hg i (by omega))
    have hgk := hg k (Nat.lt_succ_self k)
    rw [increasing_iterate s hs k (by omega)] at hgk
    simp only [increasing, increasingSupplier.hasNext, decide_eq_true_eq] at hgk
    push_cast
    omega

theorem decreasing_guarded (s : decreasingSupplier) (hs : s.WF)
    (hle : s.iterations ≤ s.maxIterations) (k : Nat)
    (hg : ∀ i, i < k → decreasing.hasNext (decreasing.step^[i] s) = true) :
    s.iterations + (k : Int) ≤ s.maxIterations := by
  have hmax : s.maxIterations ≤ maxInt := hs.2.2.2
  induction k with
  | zero => simpa using hle
  | succ k ih =>
    have hk := ih (fun i hi => hg i (by omega))
    have hgk := hg k (Nat.lt_succ_self k)
    rw [decreasing_iterate s hs k (by omega)] at hgk
    simp only [decreasing, decreasingSupplier.hasNext, decide_eq_true_eq] at hgk
    push_cast
    omega

/-- C12: the invariant `iterations ≤ maxIterations`. For a well-formed supplier of either
direction that starts with `iterations ≤ maxIterations`, every state reached by the step of the
writer (`k` calls of `next()`, each made in a state where `hasNext()` was true) satisfies
`iterations ≤ maxIterations`; in particular every state `write` passes through from the
suppliers `main` builds, which are the states after `k ≤ 8192` calls, satisfies it. -/
theorem iterations_le_maxIterations (si : increasingSupplier) (sd : decreasingSupplier)
    (hi : si.WF) (hd : sd.WF) (hile : si.iterations ≤ si.maxIterations)
    (hdle : sd.iterations ≤ sd.maxIterations) (k : Nat) :
    ((∀ i, i < k → increasing.hasNext (increasing.step^[i] si) = true) →
      (increasing.step^[k] si).iterations ≤ (increasing.step^[k] si).maxIterations) ∧
    ((∀ i, i < k → decreasing.hasNext (decreasing.step^[i] sd) = true) →
      (decreasing.step^[k] sd).iterations ≤ (decreasing.step^[k] sd).maxIterations) ∧
    (k ≤ 8192 →
      (∀ i, i < k → increasing.hasNext (increasing.step^[i] initialIncreasing) = true) ∧
      (increasing.step^[k] initialIncreasing).iterations ≤
        (increasing.step^[k] initialIncreasing).maxIterations ∧
      (∀ i, i < k → decreasing.hasNext (decreasing.step^[i] initialDecreasing) = true) ∧
      (decreasing.step^[k] initialDecreasing).iterations ≤
        (decreasing.step^[k] initialDecreasing).maxIterations) := by
  refine ⟨?_, ?_, ?_⟩
  · intro hg
    have h := increasing_guarded si hi hile k hg
    rw [increasing_iterate si hi k (by have := hi.2.2.2; omega)]
    exact h
  · intro hg
    have h := decreasing_guarded sd hd hdle k hg
    rw [decreasing_iterate sd hd k (by have := hd.2.2.2; omega)]
    exact h
  · intro hk
    have hgi : ∀ i, i < k → increasing.hasNext (increasing.step^[i] initialIncreasing) = true := by
      intro i hik
      rw [increasing_iterate _ initialIncreasing_WF i
        (by simp only [initialIncreasing, maxInt]; omega)]
      simp only [increasing, increasingSupplier.hasNext, decide_eq_true_eq, initialIncreasing,
        numberOfWords]
      omega
    have hgd : ∀ i, i < k → decreasing.hasNext (decreasing.step^[i] initialDecreasing) = true := by
      intro i hik
      rw [decreasing_iterate _ initialDecreasing_WF i
        (by simp only [initialDecreasing, maxInt]; omega)]
      simp only [decreasing, decreasingSupplier.hasNext, decide_eq_true_eq, initialDecreasing,
        numberOfWords]
      omega
    refine ⟨hgi, ?_, hgd, ?_⟩
    · rw [increasing_iterate _ initialIncreasing_WF k
        (by simp only [initialIncreasing, maxInt]; omega)]
      simp only [initialIncreasing, numberOfWords]
      omega
    · rw [decreasing_iterate _ initialDecreasing_WF k
        (by simp only [initialDecreasing, maxInt]; omega)]
      simp only [initialDecreasing, numberOfWords]
      omega


/-- The instance of the invariant for suppliers of three values after two guarded calls. -/
theorem iterations_le_maxIterations_witness :
    (({ current := 0, iterations := 0, maxIterations := 3 } : increasingSupplier).WF ∧
     ({ current := 255, iterations := 0, maxIterations := 3 } : decreasingSupplier).WF ∧
     (0 : Int) ≤ 3 ∧ (0 : Int) ≤ 3) ∧
    (((∀ i, i < 2 → increasing.hasNext (increasing.step^[i]
          { current := 0, iterations := 0, maxIterations := 3 }) = true) →
      (increasing.step^[2] { current := 0, iterations := 0, maxIterations := 3 }).iterations ≤
        (increasing.step^[2]
          { current := 0, iterations := 0, maxIterations := 3 }).maxIterations) ∧
    ((∀ i, i < 2 → decreasing.hasNext (decreasing.step^[i]
          { current := 255, iterations := 0, maxIterations := 3 }) = true) →
      (decreasing.step^[2] { current := 255, iterations := 0, maxIterations := 3 }).iterations ≤
        (decreasing.step^[2]
          { current := 255, iterations := 0, maxIterations := 3 }).maxIterations) ∧
    (2 ≤ 8192 →
      (∀ i, i < 2 → increasing.hasNext (increasing.step^[i] initialIncreasing) = true) ∧
      (increasing.step^[2] initialIncreasing).iterations ≤
        (increasing.step^[2] initialIncreasing).maxIterations ∧
      (∀ i, i < 2 → decreasing.hasNext (decreasing.step^[i] initialDecreasing) = true) ∧
      (decreasing.step^[2] initialDecreasing).iterations ≤
        (decreasing.step^[2] initialDecreasing).maxIterations)) :=
  ⟨⟨by decide, by decide, by decide, by decide⟩,
   iterations_le_maxIterations { current := 0, iterations := 0, maxIterations := 3 }
     { current := 255, iterations := 0, maxIterations := 3 } (by decide) (by decide)
     (by decide) (by decide) 2⟩

/-! ## Calls of `next()` past the end -/

theorem wrapInt_wrapInt_succ (x : Int) : wrapInt (wrapInt x + 1) = wrapInt (x + 1) := by
  unfold wrapInt; omega

theorem wrapInt_of_isInt (x : Int) (h : isInt x) : wrapInt x = x := by
  unfold isInt minInt maxInt at h; unfold wrapInt; omega

theorem increasing_iterate_wrap (s : increasingSupplier) (hs : s.WF) (m : Nat) :
    increasing.step^[m] s =
      { current := (s.current + m) % 256, iterations := wrapInt (s.iterations + m),
        maxIterations := s.maxIterations } := by
  obtain ⟨hc, hit, _⟩ := hs
  induction m with
  | zero =>
    cases s
    simp only [Function.iterate_zero, id_eq, Nat.add_zero, Nat.cast_zero, Int.add_zero] at *
    rw [wrapInt_of_isInt _ hit]
    congr
    omega
  | succ m ih =>
    rw [Function.iterate_succ_apply', ih]
    simp only [supplier.step, increasing, increasingSupplier.next]
    congr 1
    · unfold wrapUint8; omega
    · rw [wrapInt_wrapInt_succ]; congr 1; push_cast; ring

theorem decreasing_iterate_wrap (s : decreasingSupplier) (hs : s.WF) (m : Nat) :
    decreasing.step^[m] s =
      { current := wrapUint8 ((s.current : Int) - m), iterations := wrapInt (s.iterations + m),
        maxIterations := s.maxIterations } := by
  obtain ⟨hc, hit, _⟩ := hs
  induction m with
  | zero =>
    cases s
    simp only [Function.iterate_zero, id_eq, Nat.cast_zero, Int.add_zero, Int.sub_zero] at *
    rw [wrapInt_of_isInt _ hit]
    congr
    unfold wrapUint8; omega
  | succ m ih =>
    rw [Function.iterate_succ_apply', ih]
    simp only [supplier.step, decreasing, decreasingSupplier.next]
    congr 1
    · unfold wrapUint8; push_cast; omega
    · rw [wrapInt_wrapInt_succ]; congr 1; push_cast; ring

/-- C13, as stated, fails: exhaustion is not permanent under every number of further calls.
The supplier `main` builds is exhausted after 8192 calls of `next()`; after 9223372036854767616
further calls the `int` counter has wrapped to the smallest `int` and `hasNext()` is true again,
for either direction. An exhausted supplier whose bound is the largest `int` has `hasNext()`
true again after a single further call. -/
theorem exhaustion_counterexample :
    increasing.hasNext (increasing.step^[8192] initialIncreasing) = false ∧
    increasing.hasNext
      (increasing.step^[9223372036854767616] (increasing.step^[8192] initialIncreasing)) = true ∧
    decreasing.hasNext (decreasing.step^[8192] initialDecreasing) = false ∧
    decreasing.hasNext
      (decreasing.step^[9223372036854767616] (decreasing.step^[8192] initialDecreasing)) = true ∧
    increasingSupplier.hasNext
      { current := 0, iterations := 9223372036854775807,
        maxIterations := 9223372036854775807 } = false ∧
    increasingSupplier.hasNext (increasingSupplier.next
      { current := 0, iterations := 9223372036854775807,
        maxIterations := 9223372036854775807 }).2 = true := by
  refine ⟨?_, ?_, ?_, ?_, by decide, by decide⟩
  · rw [increasing_iterate_wrap _ initialIncreasing_WF]
    decide
  · rw [← Function.iterate_add_apply, increasing_iterate_wrap _ initialIncreasing_WF]
    decide
  · rw [decreasing_iterate_wrap _ initialDecreasing_WF]
    decide
  · rw [← Function.iterate_add_apply, decreasing_iterate_wrap _ initialDecreasing_WF]
    decide

/-- C13, amended: exhaustion is permanent as long as the counter stays in the range of `int`.
For a well-formed supplier of either direction with `hasNext()` false, after any number `m` of
further calls of `next()` with `iterations + m` not above the largest `int`, `hasNext()` is
still false, `maxIterations` is unchanged and `iterations` has only grown: no call restarts the
sequence. -/
theorem exhaustion_is_permanent (si : increasingSupplier) (sd : decreasingSupplier)
    (hi : si.WF) (hd : sd.WF) (hie : increasing.hasNext si = false)
    (hde : decreasing.hasNext sd = false) (m : Nat)
    (him : si.iterations + (m : Int) ≤ maxInt) (hdm : sd.iterations + (m : Int) ≤ maxInt) :
    (increasing.hasNext (increasing.step^[m] si) = false ∧
     (increasing.step^[m] si).maxIterations = si.maxIterations ∧
     (increasing.step^[m] si).iterations = si.iterations + m) ∧
    (decreasing.hasNext (decreasing.step^[m] sd) = false ∧
     (decreasing.step^[m] sd).maxIterations = sd.maxIterations ∧
     (decreasing.step^[m] sd).iterations = sd.iterations + m) := by
  rw [increasing_iterate si hi m him, decreasing_iterate sd hd m hdm]
  simp only [increasing, decreasing, increasingSupplier.hasNext, decreasingSupplier.hasNext,
    decide_eq_false_iff_not, and_true] at hie hde ⊢
  omega

/-- Permanence of exhaustion for the exhausted suppliers of `main` under 100000 further
calls. -/
theorem exhaustion_is_permanent_witness :
    (({ current := 0, iterations := 8192, maxIterations := 8192 } : increasingSupplier).WF ∧
     ({ current := 255, iterations := 8192, maxIterations := 8192 } : decreasingSupplier).WF ∧
     increasing.hasNext { current := 0, iterations := 8192, maxIterations := 8192 } = false ∧
     decreasing.hasNext { current := 255, iterations := 8192, maxIterations := 8192 } = false ∧
     (8192 : Int) + ((100000 : Nat) : Int) ≤ maxInt ∧
     (8192 : Int) + ((100000 : Nat) : Int) ≤ maxInt) ∧
    ((increasing.hasNext (increasing.step^[100000]
        { current := 0, iterations := 8192, maxIterations := 8192 }) = false ∧
      (increasing.step^[100000]
        { current := 0, iterations := 8192, maxIterations := 8192 }).maxIterations = 8192 ∧
      (increasing.step^[100000]
        { current := 0, iterations := 8192, maxIterations := 8192 }).iterations
        = 8192 + (100000 : Nat)) ∧
     (decreasing.hasNext (decreasing.step^[100000]
        { current := 255, iterations := 8192, maxIterations := 8192 }) = false ∧
      (decreasing.step^[100000]
        { current := 255, iterations := 8192, maxIterations := 8192 }).maxIterations = 8192 ∧
      (decreasing.step^[100000]
        { current := 255, iterations := 8192, maxIterations := 8192 }).iterations
        = 8192 + (100000 : Nat))) :=
  ⟨⟨by decide, by decide, by decide, by decide, by decide, by decide⟩,
   exhaustion_is_permanent { current := 0, iterations := 8192, maxIterations := 8192 }
     { current := 255, iterations := 8192, maxIterations := 8192 } (by decide) (by decide)
     (by decide) (by decide) 100000 (by decide) (by decide)⟩


/-- C14: determinism. In every world, two runs with the same `-desc` value whose destinations
(any two non-empty paths) are created with the same fresh writer both return with status 0
and leave the writer in the same state, whatever the paths and the fuel (above 8192) are; in
a world without failures that state is the content of the file, so the two files are
byte-identical and depend on `-desc` alone. -/
theorem determinism {ω : Type} (env : Env ω) (desc : Bool) (p1 p2 : String) (w0 : ω)
    (f1 f2 : Nat) (hp1 : p1 ≠ "") (hp2 : p2 ≠ "") (hc1 : env.Create p1 = some w0)
    (hc2 : env.Create p2 = some w0) (hf1 : 8192 < f1) (hf2 : 8192 < f2) :
    ∃ r1 r2, main env f1 { path := p1, desc := desc, help := false } = some r1 ∧
      main env f2 { path := p2, desc := desc, help := false } = some r2 ∧
      r1.exit = 0 ∧ r2.exit = 0 ∧ r1.writer = r2.writer ∧ r1.writer ≠ none := by
  cases desc with
  | false =>
    exact ⟨_, _, main_ascending env f1 p1 w0 hp1 hc1 hf1, main_ascending env f2 p2 w0 hp2 hc2 hf2,
      rfl, rfl, rfl, by simp⟩
  | true =>
    exact ⟨_, _, main_descending env f1 p1 w0 hp1 hc1 hf1,
      main_descending env f2 p2 w0 hp2 hc2 hf2, rfl, rfl, rfl, by simp⟩

/-- Two ascending runs in a world without failures, to `a.bin` and to `b.bin`. -/
theorem determinism_witness :
    ("a.bin" ≠ "" ∧ "b.bin" ≠ "" ∧ ideal.Create "a.bin" = some [] ∧
     ideal.Create "b.bin" = some [] ∧ 8192 < 8193 ∧ 8192 < 9000) ∧
    ∃ r1 r2, main ideal 8193 { path := "a.bin", desc := false, help := false } = some r1 ∧
      main ideal 9000 { path := "b.bin", desc := false, help := false } = some r2 ∧
      r1.exit = 0 ∧ r2.exit = 0 ∧ r1.writer = r2.writer ∧ r1.writer ≠ none :=
  ⟨⟨by decide, by decide, rfl, rfl, by decide, by decide⟩,
   determinism ideal false "a.bin" "b.bin" [] 8193 9000 (by decide) (by decide) rfl rfl
     (by decide) (by decide)⟩

/-- C15: the closed form and the termination of `write`. For every well-formed state of either
supplier, with `current = c`, `iterations = k` and `maxIterations = n`, `write` returns for
every fuel above `max(0, n - k)`; it appends exactly `max(0, n - k)` bytes to the sink (none
when `k ≥ n`), byte `j` being `(c + j) mod 256` for the ascending and `(c - j) mod 256` for the
descending supplier; the number of bytes is a function of `n - k` only. -/
theorem write_closed_form (si : increasingSupplier) (sd : decreasingSupplier) (hi : si.WF)
    (hd : sd.WF) (prior : List Nat) :
    (∃ out t, (∀ fuel, (si.maxIterations - si.iterations).toNat < fuel →
        write sink increasing fuel prior si = some (prior ++ out, t)) ∧
      (out.length : Int) = max 0 (si.maxIterations - si.iterations) ∧
      (si.maxIterations ≤ si.iterations → out = []) ∧
      ∀ j : Nat, j < out.length → out[j]? = some ((si.current + j) % 256)) ∧
    (∃ out t, (∀ fuel, (sd.maxIterations - sd.iterations).toNat < fuel →
        write sink decreasing fuel prior sd = some (prior ++ out, t)) ∧
      (out.length : Int) = max 0 (sd.maxIterations - sd.iterations) ∧
      (sd.maxIterations ≤ sd.iterations → out = []) ∧
      ∀ j : Nat, j < out.length → ∃ b : Nat, out[j]? = some b ∧
        (b : Int) = ((sd.current : Int) - (j : Int)) % 256) := by
  constructor
  · refine ⟨(List.range (si.maxIterations - si.iterations).toNat).map
        (fun j => (si.current + j) % 256),
      { current := (si.current + (si.maxIterations - si.iterations).toNat) % 256,
        iterations := si.iterations + (si.maxIterations - si.iterations).toNat,
        maxIterations := si.maxIterations }, fun fuel hf => ?_, ?_, ?_, ?_⟩
    · rw [write_increasing sink si hi prior fuel hf, sink_feed]
    · simp only [List.length_map, List.length_range]; omega
    · intro h
      have h0 : (si.maxIterations - si.iterations).toNat = 0 := by omega
      simp [h0]
    · intro j hj
      simp only [List.length_map, List.length_range] at hj
      simp [List.getElem?_map, List.getElem?_range, hj]
  · refine ⟨(List.range (sd.maxIterations - sd.iterations).toNat).map
        (fun j : Nat => wrapUint8 ((sd.current : Int) - (j : Int))),
      { current := wrapUint8 ((sd.current : Int) - (sd.maxIterations - sd.iterations).toNat),
        iterations := sd.iterations + (sd.maxIterations - sd.iterations).toNat,
        maxIterations := sd.maxIterations }, fun fuel hf => ?_, ?_, ?_, ?_⟩
    · rw [write_decreasing sink sd hd prior fuel hf, sink_feed]
    · simp only [List.length_map, List.length_range]; omega
    · intro h
      have h0 : (sd.maxIterations - sd.iterations).toNat = 0 := by omega
      simp [h0]
    · intro j hj
      simp only [List.length_map, List.length_range] at hj
      refine ⟨wrapUint8 ((sd.current : Int) - (j : Int)), ?_, ?_⟩
      · simp [List.getElem?_map, List.getElem?_range, hj]
      · unfold wrapUint8; omega


/-- The closed form for an ascending supplier at 250 and a descending supplier at 3 with ten
values left each, on a sink that already holds one byte. -/
theorem write_closed_form_witness :
    (({ current := 250, iterations := 2, maxIterations := 12 } : increasingSupplier).WF ∧
     ({ current := 3, iterations := 2, maxIterations := 12 } : decreasingSupplier).WF) ∧
    ((∃ out t, (∀ fuel, ((12 : Int) - 2).toNat < fuel →
        write sink increasing fuel [7] { current := 250, iterations := 2, maxIterations := 12 }
          = some ([7] ++ out, t)) ∧
      (out.length : Int) = max 0 ((12 : Int) - 2) ∧
      ((12 : Int) ≤ 2 → out = []) ∧
      ∀ j : Nat, j < out.length → out[j]? = some ((250 + j) % 256)) ∧
    (∃ out t, (∀ fuel, ((12 : Int) - 2).toNat < fuel →
        write sink decreasing fuel [7] { current := 3, iterations := 2, maxIterations := 12 }
          = some ([7] ++ out, t)) ∧
      (out.length : Int) = max 0 ((12 : Int) - 2) ∧
      ((12 : Int) ≤ 2 → out = []) ∧
      ∀ j : Nat, j < out.length → ∃ b : Nat, out[j]? = some b ∧
        (b : Int) = (((3 : Nat) : Int) - (j : Int)) % 256)) :=
  ⟨⟨by decide, by decide⟩,
   write_closed_form { current := 250, iterations := 2, maxIterations := 12 }
     { current := 3, iterations := 2, maxIterations := 12 } (by decide) (by decide) [7]⟩

/-- C16, as stated, fails: with `iterations = maxIterations` at the largest `int`, a call of
`next()` does not leave `iterations = maxIterations + 1`; the counter wraps to the smallest
`int`, and the bound `iterations ≤ maxIterations` still holds after the call, for either
supplier. -/
theorem unguarded_next_counterexample :
    ({ current := 7, iterations := 9223372036854775807,
       maxIterations := 9223372036854775807 } : increasingSupplier).WF ∧
    increasingSupplier.hasNext
      { current := 7, iterations := 9223372036854775807,
        maxIterations := 9223372036854775807 } = false ∧
    (increasingSupplier.next
      { current := 7, iterations := 9223372036854775807,
        maxIterations := 9223372036854775807 }).2.iterations ≠ 9223372036854775807 + 1 ∧
    (increasingSupplier.next
      { current := 7, iterations := 9223372036854775807,
        maxIterations := 9223372036854775807 }).2.iterations ≤
      (increasingSupplier.next
        { current := 7, iterations := 9223372036854775807,
          maxIterations := 9223372036854775807 }).2.maxIterations ∧
    ({ current := 7, iterations := 9223372036854775807,
       maxIterations := 9223372036854775807 } : decreasingSupplier).WF ∧
    decreasingSupplier.hasNext
      { current := 7, iterations := 9223372036854775807,
        maxIterations := 9223372036854775807 } = false ∧
    (decreasingSupplier.next
      { current := 7, iterations := 9223372036854775807,
        maxIterations := 9223372036854775807 }).2.iterations ≠ 9223372036854775807 + 1 ∧
    (decreasingSupplier.next
      { current := 7, iterations := 9223372036854775807,
        maxIterations := 9223372036854775807 }).2.iterations ≤
      (decreasingSupplier.next
        { current := 7, iterations := 9223372036854775807,
          maxIterations := 9223372036854775807 }).2.maxIterations := by
  refine ⟨by decide, by decide, by decide, by decide, by decide, by decide, by decide,
    by decide⟩

/-- C16, amended: `next()` does not enforce its own precondition. For a well-formed supplier of
either direction with `iterations = maxIterations` (so `hasNext()` is false) and
`maxIterations` below the largest `int`, a call of `next()` still returns `current`, still
advances `current`, and leaves `iterations = maxIterations + 1`, so that
`iterations ≤ maxIterations` no longer holds; a call made when `hasNext()` is true keeps the
bound. -/
theorem unguarded_next (si : increasingSupplier) (sd : decreasingSupplier) (hi : si.WF)
    (hd : sd.WF) (hie : si.iterations = si.maxIterations)
    (hde : sd.iterations = sd.maxIterations) (him : si.maxIterations < maxInt)
    (hdm : sd.maxIterations < maxInt) :
    (si.hasNext = false ∧ (si.next).1 = si.current ∧
     (si.next).2.current = (si.current + 1) % 256 ∧ (si.next).2.current ≠ si.current ∧
     (si.next).2.iterations = si.maxIterations + 1 ∧
     ¬ ((si.next).2.iterations ≤ (si.next).2.maxIterations)) ∧
    (sd.hasNext = false ∧ (sd.next).1 = sd.current ∧
     ((sd.next).2.current : Int) = ((sd.current : Int) - 1) % 256 ∧
     (sd.next).2.current ≠ sd.current ∧
     (sd.next).2.iterations = sd.maxIterations + 1 ∧
     ¬ ((sd.next).2.iterations ≤ (sd.next).2.maxIterations)) ∧
    (∀ t : increasingSupplier, t.WF → t.hasNext = true →
      (t.next).2.iterations ≤ (t.next).2.maxIterations) ∧
    (∀ t : decreasingSupplier, t.WF → t.hasNext = true →
      (t.next).2.iterations ≤ (t.next).2.maxIterations) := by
  obtain ⟨hic, ⟨hilo, _⟩, _⟩ := hi
  obtain ⟨hdc, ⟨hdlo, _⟩, _⟩ := hd
  have hwi : wrapInt (si.iterations + 1) = si.iterations + 1 :=
    wrapInt_succ _ hilo (by omega)
  have hwd : wrapInt (sd.iterations + 1) = sd.iterations + 1 :=
    wrapInt_succ _ hdlo (by omega)
  refine ⟨⟨?_, rfl, ?_, ?_, ?_, ?_⟩, ⟨?_, rfl, ?_, ?_, ?_, ?_⟩, ?_, ?_⟩
  · simp only [increasingSupplier.hasNext, decide_eq_false_iff_not]; omega
  · simp only [increasingSupplier.next, wrapUint8]; omega
  · simp only [increasingSupplier.next, wrapUint8]; omega
  · simp only [increasingSupplier.next, hwi]; omega
  · simp only [increasingSupplier.next, hwi]; omega
  · simp only [decreasingSupplier.hasNext, decide_eq_false_iff_not]; omega
  · simp only [decreasingSupplier.next, wrapUint8]; omega
  · simp only [decreasingSupplier.next, wrapUint8]; omega
  · simp only [decreasingSupplier.next, hwd]; omega
  · simp only [decreasingSupplier.next, hwd]; omega
  · intro t ht hn
    obtain ⟨_, ⟨hlo, _⟩, ⟨_, hhi⟩⟩ := ht
    simp only [increasingSupplier.hasNext, decide_eq_true_eq] at hn
    simp only [increasingSupplier.next, wrapInt_succ _ hlo (by omega)]
    omega
  · intro t ht hn
    obtain ⟨_, ⟨hlo, _⟩, ⟨_, hhi⟩⟩ := ht
    simp only [decreasingSupplier.hasNext, decide_eq_true_eq] at hn
    simp only [decreasingSupplier.next, wrapInt_succ _ hlo (by omega)]
    omega


/-- One unguarded call of `next()` on the exhausted suppliers of `main`. -/
theorem unguarded_next_witness :
    (({ current := 0, iterations := 8192, maxIterations := 8192 } : increasingSupplier).WF ∧
     ({ current := 255, iterations := 8192, maxIterations := 8192 } : decreasingSupplier).WF ∧
     (8192 : Int) = 8192 ∧ (8192 : Int) = 8192 ∧ (8192 : Int) < maxInt ∧
     (8192 : Int) < maxInt) ∧
    ((increasingSupplier.hasNext { current := 0, iterations := 8192, maxIterations := 8192 }
        = false ∧
      (increasingSupplier.next { current := 0, iterations := 8192, maxIterations := 8192 }).1
        = 0 ∧
      (increasingSupplier.next
        { current := 0, iterations := 8192, maxIterations := 8192 }).2.current
        = (0 + 1) % 256 ∧
      (increasingSupplier.next
        { current := 0, iterations := 8192, maxIterations := 8192 }).2.current ≠ 0 ∧
      (increasingSupplier.next
        { current := 0, iterations := 8192, maxIterations := 8192 }).2.iterations
        = 8192 + 1 ∧
      ¬ ((increasingSupplier.next
            { current := 0, iterations := 8192, maxIterations := 8192 }).2.iterations ≤
          (increasingSupplier.next
            { current := 0, iterations := 8192, maxIterations := 8192 }).2.maxIterations)) ∧
     (decreasingSupplier.hasNext { current := 255, iterations := 8192, maxIterations := 8192 }
        = false ∧
      (decreasingSupplier.next { current := 255, iterations := 8192, maxIterations := 8192 }).1
        = 255 ∧
      (((decreasingSupplier.next
        { current := 255, iterations := 8192, maxIterations := 8192 }).2.current : Nat) : Int)
        = (((255 : Nat) : Int) - 1) % 256 ∧
      (decreasingSupplier.next
        { current := 255, iterations := 8192, maxIterations := 8192 }).2.current ≠ 255 ∧
      (decreasingSupplier.next
        { current := 255, iterations := 8192, maxIterations := 8192 }).2.iterations
        = 8192 + 1 ∧
      ¬ ((decreasingSupplier.next
            { current := 255, iterations := 8192, maxIterations := 8192 }).2.iterations ≤
          (decreasingSupplier.next
            { current := 255, iterations := 8192, maxIterations := 8192 }).2.maxIterations)) ∧
     (∀ t : increasingSupplier, t.WF → t.hasNext = true →
       (t.next).2.iterations ≤ (t.next).2.maxIterations) ∧
     (∀ t : decreasingSupplier, t.WF → t.hasNext = true →
       (t.next).2.iterations ≤ (t.next).2.maxIterations)) :=
  ⟨⟨by decide, by decide, rfl, rfl, by decide, by decide⟩,
   unguarded_next { current := 0, iterations := 8192, maxIterations := 8192 }
     { current := 255, iterations := 8192, maxIterations := 8192 } (by decide) (by decide)
     rfl rfl (by decide) (by decide)⟩

/-! ## Relations between the two outputs -/

/-- C17: the descending output is the ascending output reversed. In the files the two runs
leave in a world without failures, for every `i < 8192` the byte at offset `i` of the
descending file is the byte at offset `8191 - i` of the ascending file. -/
theorem descending_is_reverse (fuel : Nat) (path : String) (hp : path ≠ "")
    (hf : 8192 < fuel) :
    ∃ ra rd asc dsc,
      main ideal fuel { path := path, desc := false, help := false } = some ra ∧
      ra.writer = some asc ∧
      main ideal fuel { path := path, desc := true, help := false } = some rd ∧
      rd.writer = some dsc ∧
      asc.length = 8192 ∧ dsc.length = 8192 ∧ dsc = asc.reverse ∧
      ∀ i : Nat, i < 8192 → ∃ b : Nat, dsc[i]? = some b ∧ asc[8191 - i]? = some b := by
  have hget : ∀ i : Nat, i < 8192 →
      ((List.range 8192).map (fun j : Nat => wrapUint8 (255 - (j : Int))))[i]? =
        ((List.range 8192).map (fun j => j % 256))[8191 - i]? := by
    intro i hi
    rw [descending_getElem i hi, ascending_getElem (8191 - i) (by omega)]
    congr 1
    unfold wrapUint8; omega
  refine ⟨_, _, _, _, main_ideal_ascending fuel path hp hf, rfl,
    main_ideal_descending fuel path hp hf, rfl, by simp, by simp, ?_, ?_⟩
  · apply List.ext_getElem?
    intro i
    by_cases hi : i < 8192
    · rw [hget i hi, List.getElem?_reverse (by simpa using hi)]
      simp
    · rw [List.getElem?_eq_none (by simp; omega), List.getElem?_eq_none (by simp; omega)]
  · intro i hi
    exact ⟨wrapUint8 (255 - (i : Int)), descending_getElem i hi,
      by rw [← hget i hi]; exact descending_getElem i hi⟩

/-- The reversal for the destination `out.bin` at fuel 8193. -/
theorem descending_is_reverse_witness :
    ("out.bin" ≠ "" ∧ 8192 < 8193) ∧
    ∃ ra rd asc dsc,
      main ideal 8193 { path := "out.bin", desc := false, help := false } = some ra ∧
      ra.writer = some asc ∧
      main ideal 8193 { path := "out.bin", desc := true, help := false } = some rd ∧
      rd.writer = some dsc ∧
      asc.length = 8192 ∧ dsc.length = 8192 ∧ dsc = asc.reverse ∧
      ∀ i : Nat, i < 8192 → ∃ b : Nat, dsc[i]? = some b ∧ asc[8191 - i]? = some b :=
  ⟨⟨by decide, by decide⟩, descending_is_reverse 8193 "out.bin" (by decide) (by decide)⟩

theorem complement_eq_xor (a : Nat) (ha : a < 256) : 255 - a = a ^^^ 255 := by
  interval_cases a <;> rfl

/-- C18: the two outputs are byte-wise complements. In the files the two runs leave in a world
without failures, for every `i < 8192` the byte at offset `i` of the descending file is 255
minus the byte at offset `i` of the ascending file, which is its 8-bit bitwise complement, and
the two bytes add up to 255. -/
theorem outputs_are_complements (fuel : Nat) (path : String) (hp : path ≠ "")
    (hf : 8192 < fuel) :
    ∃ ra rd asc dsc,
      main ideal fuel { path := path, desc := false, help := false } = some ra ∧
      ra.writer = some asc ∧
      main ideal fuel { path := path, desc := true, help := false } = some rd ∧
      rd.writer = some dsc ∧
      ∀ i : Nat, i < 8192 → ∃ a d : Nat, asc[i]? = some a ∧ dsc[i]? = some d ∧
        d = 255 - a ∧ d = a ^^^ 255 ∧ a + d = 255 := by
  refine ⟨_, _, _, _, main_ideal_ascending fuel path hp hf, rfl,
    main_ideal_descending fuel path hp hf, rfl, ?_⟩
  intro i hi
  have hd : wrapUint8 (255 - (i : Int)) = 255 - i % 256 := by unfold wrapUint8; omega
  refine ⟨i % 256, wrapUint8 (255 - (i : Int)), ascending_getElem i hi,
    descending_getElem i hi, hd, ?_, ?_⟩
  · rw [hd]; exact complement_eq_xor _ (Nat.mod_lt _ (by decide))
  · rw [hd]; omega

/-- The complement relation for the destination `out.bin` at fuel 8193. -/
theorem outputs_are_complements_witness :
    ("out.bin" ≠ "" ∧ 8192 < 8193) ∧
    ∃ ra rd asc dsc,
      main ideal 8193 { path := "out.bin", desc := false, help := false } = some ra ∧
      ra.writer = some asc ∧
      main ideal 8193 { path := "out.bin", desc := true, help := false } = some rd ∧
      rd.writer = some dsc ∧
      ∀ i : Nat, i < 8192 → ∃ a d : Nat, asc[i]? = some a ∧ dsc[i]? = some d ∧
        d = 255 - a ∧ d = a ^^^ 255 ∧ a + d = 255 :=
  ⟨⟨by decide, by decide⟩, outputs_are_complements 8193 "out.bin" (by decide) (by decide)⟩


/-! ## Period and distribution of the outputs -/

theorem count_blocks (f : Nat → Nat) (v : Nat)
    (hper : ∀ j, f (j + 256) = f j)
    (hone : ((List.range 256).map f).count v = 1) (m : Nat) :
    ((List.range (256 * m)).map f).count v = m := by
  have hshift : ∀ (m j : Nat), f (256 * m + j) = f j := by
    intro m
    induction m with
    | zero => intro j; simp
    | succ m ih =>
      intro j
      have : 256 * (m + 1) + j = (256 * m + j) + 256 := by ring
      rw [this, hper, ih]
  induction m with
  | zero => simp
  | succ m ih =>
    have hsplit : 256 * (m + 1) = 256 * m + 256 := by ring
    rw [hsplit, List.range_add, List.map_append, List.count_append, ih, List.map_map]
    have hchunk : (List.range 256).map (f ∘ fun x => 256 * m + x) = (List.range 256).map f := by
      apply List.map_congr_left
      intro j _
      exact hshift m j
    rw [hchunk, hone]

theorem ascending_block (v : Nat) (hv : v < 256) :
    ((List.range 256).map (fun j => j % 256)).count v = 1 := by
  have hid : (List.range 256).map (fun j => j % 256) = List.range 256 := by
    have h : ∀ j ∈ List.range 256, (fun j => j % 256) j = id j := by
      intro j hj
      have := List.mem_range.1 hj
      simp only [id_eq]
      omega
    rw [List.map_congr_left h, List.map_id]
  rw [hid]
  exact List.count_eq_one_of_mem (List.nodup_range 256) (List.mem_range.2 hv)

theorem descending_block (v : Nat) (hv : v < 256) :
    ((List.range 256).map (fun j : Nat => wrapUint8 (255 - (j : Int)))).count v = 1 := by
  apply List.count_eq_one_of_mem
  · apply List.Nodup.map_on _ (List.nodup_range 256)
    intro x hx y hy hxy
    have hx' := List.mem_range.1 hx
    have hy' := List.mem_range.1 hy
    unfold wrapUint8 at hxy
    omega
  · refine List.mem_map.2 ⟨255 - v, List.mem_range.2 (by omega), ?_⟩
    unfold wrapUint8; omega

/-- C19: both outputs have period 256 and are uniform. In the files the two runs leave in a
world without failures, the byte at offset `i + 256` equals the byte at offset `i` whenever
`i + 256 < 8192`, and every byte value from 0 to 255 occurs exactly 32 times among the 8192
bytes. -/
theorem outputs_periodic_uniform (fuel : Nat) (path : String) (hp : path ≠ "")
    (hf : 8192 < fuel) :
    ∃ ra rd asc dsc,
      main ideal fuel { path := path, desc := false, help := false } = some ra ∧
      ra.writer = some asc ∧
      main ideal fuel { path := path, desc := true, help := false } = some rd ∧
      rd.writer = some dsc ∧
      asc.length = 8192 ∧ dsc.length = 8192 ∧
      (∀ i : Nat, i + 256 < 8192 → ∃ a d : Nat, asc[i]? = some a ∧ asc[i + 256]? = some a ∧
        dsc[i]? = some d ∧ dsc[i + 256]? = some d) ∧
      (∀ v : Nat, v < 256 → asc.count v = 32 ∧ dsc.count v = 32) := by
  refine ⟨_, _, _, _, main_ideal_ascending fuel path hp hf, rfl,
    main_ideal_descending fuel path hp hf, rfl, by simp, by simp, ?_, ?_⟩
  · intro i hi
    refine ⟨i % 256, wrapUint8 (255 - (i : Int)), ascending_getElem i (by omega), ?_,
      descending_getElem i (by omega), ?_⟩
    · have hm : (i + 256) % 256 = i % 256 := by omega
      rw [ascending_getElem (i + 256) hi, hm]
    · have hw : wrapUint8 (255 - ((i + 256 : Nat) : Int)) = wrapUint8 (255 - (i : Int)) := by
        unfold wrapUint8; push_cast; omega
      rw [descending_getElem (i + 256) hi, hw]
  · intro v hv
    constructor
    · exact count_blocks (fun j => j % 256) v (fun j => by simp) (ascending_block v hv) 32
    · exact count_blocks (fun j : Nat => wrapUint8 (255 - (j : Int))) v
        (fun j => by unfold wrapUint8; push_cast; omega) (descending_block v hv) 32

/-- The period and the distribution for the destination `out.bin` at fuel 8193. -/
theorem outputs_periodic_uniform_witness :
    ("out.bin" ≠ "" ∧ 8192 < 8193) ∧
    ∃ ra rd asc dsc,
      main ideal 8193 { path := "out.bin", desc := false, help := false } = some ra ∧
      ra.writer = some asc ∧
      main ideal 8193 { path := "out.bin", desc := true, help := false } = some rd ∧
      rd.writer = some dsc ∧
      asc.length = 8192 ∧ dsc.length = 8192 ∧
      (∀ i : Nat, i + 256 < 8192 → ∃ a d : Nat, asc[i]? = some a ∧ asc[i + 256]? = some a ∧
        dsc[i]? = some d ∧ dsc[i + 256]? = some d) ∧
      (∀ v : Nat, v < 256 → asc.count v = 32 ∧ dsc.count v = 32) :=
  ⟨⟨by decide, by decide⟩, outputs_periodic_uniform 8193 "out.bin" (by decide) (by decide)⟩

end Generator
